import Mathlib

/-
Shallow embedding of the SPSC ring buffer from `include/ringbuf.hpp` and the
region-view types from `include/storage.hpp`.

Modelling conventions:
- The engine state `spsc_ringbuf<T, max_size, ThreadSafe>` is a structure
  `Ringbuf T N` holding the storage array (a list of length `N`), the read
  cursor `head` and the write cursor `tail`.  We model the isolated
  (single-threaded) mode: the `load`/`store` helpers are plain reads and
  writes, so they disappear in the embedding.
- `max_size` is required by the `static_assert` to be a power of two and the
  cursors are kept pre-wrapped in `[0, N)`, so the C++ expression
  `x & mask` (with `mask = max_size - 1`) equals `x % N`, and the `size_t`
  expression `(tail - head) & mask` (unsigned wraparound subtraction followed
  by masking) equals `(tail + N - head) % N`.  The theorem `mask_sub_mod_eq`
  below justifies the latter translation.
- A `T*` data pointer argument is modelled by `Option (List T)` (with `none`
  for `nullptr`); a destination pointer is modelled by a `Bool` validity flag
  plus returning the list of copied elements.
- `std::memcpy(buf.data() + pos, src, len)` on buffers of element type `T`
  becomes `writeRange buf pos src`; reading a linear run becomes
  `(buf.drop pos).take len`.
-/

/-- Region view `LinearBlock<T>` from `storage.hpp`: the data pointer into the
ring storage is modelled as an optional offset into the storage array, with
`none` standing for `nullptr`. -/
structure LinearBlock where
  ptr : Option Nat
  size : Nat
deriving DecidableEq

/-- Translation of `LinearBlock::empty`: `size == 0 || ptr == nullptr`. -/
def LinearBlock.empty (b : LinearBlock) : Bool :=
  b.size == 0 || b.ptr == none

/-- The pair `BufferSegments<T>` from `storage.hpp`. -/
structure BufferSegments where
  first : LinearBlock
  second : LinearBlock
deriving DecidableEq

/-- Translation of `BufferSegments::total_size`. -/
def BufferSegments.total_size (p : BufferSegments) : Nat :=
  p.first.size + p.second.size

/-- Translation of `BufferSegments::empty`. -/
def BufferSegments.empty (p : BufferSegments) : Bool :=
  p.first.empty && p.second.empty

/-- Translation of `BufferSegments::is_linear`: true iff `second` is empty. -/
def BufferSegments.is_linear (p : BufferSegments) : Bool :=
  p.second.empty

/-- State of `spsc_ringbuf<T, N, ThreadSafe>`: the storage array `buf`
(`std::array<T, max_size>`), the read cursor `head` and the write cursor
`tail`. -/
structure Ringbuf (T : Type) (N : Nat) where
  buf : List T
  head : Nat
  tail : Nat
deriving DecidableEq

/-- Semantics of `std::memcpy(buf.data() + pos, src.data(), src.size())`
(respectively the element-wise `std::copy_n`): overwrite the slots
`pos, pos+1, ...` of `buf` with the elements of `src`. -/
def writeRange {T : Type} (buf : List T) (pos : Nat) (src : List T) : List T :=
  buf.take pos ++ (src ++ buf.drop (pos + src.length))

/-- Contents of the logically contiguous run of `len` elements starting at
offset `pos`, wrapping around the physical end of `buf`.  This is the
specification-side description of what the two-part copies in `buf_store` and
`buf_read` transfer. -/
def wrapRead {T : Type} (buf : List T) (pos len : Nat) : List T :=
  (buf.drop pos).take (min (buf.length - pos) len) ++
    buf.take (len - min (buf.length - pos) len)

/-- Contents of a region view: the `b.size` elements of storage starting at
the block's offset (empty for a null block). -/
def blockContents {T : Type} (buf : List T) (b : LinearBlock) : List T :=
  match b.ptr with
  | none => []
  | some p => (buf.drop p).take b.size

namespace Ringbuf

variable {T : Type} {N : Nat}

/-- Translation of `get_data_size(size_t local_head)`: the C++ code computes
`(tail - local_head) & mask` with unsigned wraparound; for cursors below `N`
and `N` a power of two this equals `(tail + N - local_head) % N`. -/
def get_data_size_at (s : Ringbuf T N) (local_head : Nat) : Nat :=
  (s.tail + N - local_head) % N

/-- Translation of `get_data_size()`. -/
def get_data_size (s : Ringbuf T N) : Nat :=
  s.get_data_size_at s.head

/-- Translation of `get_free_size()`: `max_size - 1 - get_data_size()`. -/
def get_free_size (s : Ringbuf T N) : Nat :=
  N - 1 - s.get_data_size

/-- Translation of `get_free_size(size_t local_tail)`. -/
def get_free_size_at (s : Ringbuf T N) (local_tail : Nat) : Nat :=
  N - 1 - ((local_tail + N - s.head) % N)

/-- Translation of `size()`. -/
def size (s : Ringbuf T N) : Nat := s.get_data_size

/-- Translation of `capacity()`. -/
def capacity (_ : Ringbuf T N) : Nat := N

/-- Translation of `empty()`. -/
def empty (s : Ringbuf T N) : Bool := s.get_data_size == 0

/-- Translation of `full()`. -/
def full (s : Ringbuf T N) : Bool := s.get_free_size == 0

/-- Translation of `reset()`. -/
def reset (s : Ringbuf T N) : Ringbuf T N :=
  { s with head := 0, tail := 0 }

/-- Translation of `push_back(const T&)` (the rvalue overload has the same
state semantics).  Returns the success flag and the new state. -/
def push_back (s : Ringbuf T N) (item : T) : Bool × Ringbuf T N :=
  if s.full then (false, s)
  else
    let local_tail := s.tail
    (true, { s with buf := s.buf.set local_tail item, tail := (local_tail + 1) % N })

/-- Translation of `T pop_front()`: returns a default-constructed (`{}`)
value on an empty buffer, otherwise moves out the element at the read cursor
and advances the cursor. -/
def pop_front (s : Ringbuf T N) [Inhabited T] : T × Ringbuf T N :=
  if s.empty then (default, s)
  else
    let local_head := s.head
    let item := s.buf.getD local_head default
    (item, { s with head := (local_head + 1) % N })

/-- Translation of `bool pop_front(T &dest)`: the middle component is the
value written to `dest` (`none` when `dest` is left untouched). -/
def pop_front_ref (s : Ringbuf T N) [Inhabited T] : Bool × Option T × Ringbuf T N :=
  if s.empty then (false, none, s)
  else
    let local_head := s.head
    (true, some (s.buf.getD local_head default), { s with head := (local_head + 1) % N })

/-- Translation of the private `buf_store(local_tail, item, size)`: copies
`min size free` elements from `item` into storage starting at `local_tail`,
split into the linear part and the wrapped overflow part.  Returns the copy
count and the new storage contents. -/
def buf_store (s : Ringbuf T N) (local_tail : Nat) (item : List T) (size : Nat) :
    Nat × List T :=
  let free_data_size := s.get_free_size_at local_tail
  if free_data_size = 0 then (0, s.buf)
  else
    let copy_size := min size free_data_size
    let first_part := min (N - local_tail) copy_size
    let buf1 := writeRange s.buf local_tail (item.take first_part)
    let second_part := copy_size - first_part
    if second_part > 0 then
      (copy_size, writeRange buf1 0 ((item.drop first_part).take second_part))
    else
      (copy_size, buf1)

/-- Translation of the private `buf_read(local_head, item, size)`: copies
`min data size` elements out of storage starting at `local_head`, split into
the linear part and the wrapped overflow part.  Returns the copy count and
the list of elements written through `item`. -/
def buf_read (s : Ringbuf T N) (local_head : Nat) (size : Nat) : Nat × List T :=
  let full_data_size := s.get_data_size_at local_head
  if full_data_size = 0 then (0, [])
  else
    let copy_size := min full_data_size size
    let first_part := min (N - local_head) copy_size
    let out1 := (s.buf.drop local_head).take first_part
    let second_part := copy_size - first_part
    if second_part > 0 then
      (copy_size, out1 ++ s.buf.take second_part)
    else
      (copy_size, out1)

/-- Translation of `append(const T *item, size_t size)`; the source pointer
is `none` for `nullptr`, otherwise `some data` where `data` lists the
elements reachable through the pointer. -/
def append (s : Ringbuf T N) (item : Option (List T)) (size : Nat) :
    Nat × Ringbuf T N :=
  match item with
  | none => (0, s)
  | some data =>
    if size = 0 then (0, s)
    else
      let local_tail := s.tail
      let res := s.buf_store local_tail data size
      (res.1, { s with buf := res.2, tail := (local_tail + res.1) % N })

/-- Translation of `read_ready(T *item, size_t size)`; `valid_dest` models
whether the destination pointer is non-null, and the middle component of the
result is the list of elements copied out through it. -/
def read_ready (s : Ringbuf T N) (valid_dest : Bool) (size : Nat) :
    Nat × List T × Ringbuf T N :=
  if size = 0 ∨ valid_dest = false then (0, [], s)
  else
    let local_head := s.head
    let res := s.buf_read local_head size
    (res.1, res.2, { s with head := (local_head + res.1) % N })

/-- Translation of `peek()`: returns `buf[head]` without modifying state. -/
def peek (s : Ringbuf T N) [Inhabited T] : T :=
  s.buf.getD s.head default

/-- Translation of `peek_ready(T *item, size_t size)`: like `read_ready` but
the read cursor is never stored back, so no state is returned. -/
def peek_ready (s : Ringbuf T N) (valid_dest : Bool) (size : Nat) :
    Nat × List T :=
  if size = 0 ∨ valid_dest = false then (0, [])
  else
    let local_head := s.head
    let full_data_size := s.get_data_size_at local_head
    if full_data_size = 0 then (0, [])
    else s.buf_read local_head size

/-- Translation of `advance_write_pointer(size_t advance)`. -/
def advance_write_pointer (s : Ringbuf T N) (advance : Nat) : Ringbuf T N :=
  if advance = 0 ∨ s.full then s
  else { s with tail := (s.tail + advance) % N }

/-- Translation of `advance_read_pointer(size_t advance)`. -/
def advance_read_pointer (s : Ringbuf T N) (advance : Nat) : Ringbuf T N :=
  if advance = 0 ∨ s.empty then s
  else { s with head := (s.head + advance) % N }

/-- Translation of `get_write_segments()`; block pointers are offsets into
the storage array. -/
def get_write_segments (s : Ringbuf T N) : BufferSegments :=
  let local_tail := s.tail
  let free_space := s.get_free_size_at local_tail
  if free_space = 0 then ⟨⟨none, 0⟩, ⟨none, 0⟩⟩
  else
    let first_size := min free_space (N - local_tail)
    let first_block : LinearBlock := ⟨some local_tail, first_size⟩
    let second_size := free_space - first_size
    if second_size > 0 then ⟨first_block, ⟨some 0, second_size⟩⟩
    else ⟨first_block, ⟨none, 0⟩⟩

/-- Translation of `get_read_segments()`. -/
def get_read_segments (s : Ringbuf T N) : BufferSegments :=
  let local_head := s.head
  let data_size := s.get_data_size_at local_head
  if data_size = 0 then ⟨⟨none, 0⟩, ⟨none, 0⟩⟩
  else
    let first_size := min data_size (N - local_head)
    let first_block : LinearBlock := ⟨some local_head, first_size⟩
    let second_size := data_size - first_size
    if second_size > 0 then ⟨first_block, ⟨some 0, second_size⟩⟩
    else ⟨first_block, ⟨none, 0⟩⟩

/-- Public operations of the engine, with their arguments; used to describe
reachable states.  Query operations (`size`, `capacity`, `empty`, `full`,
`peek`, `peek_ready`, the segment and linear-block getters) never store a
cursor, so they map a state to itself. -/
inductive Step (T : Type) : Type
  | reset : Step T
  | push_back (item : T) : Step T
  | pop_front : Step T
  | pop_front_ref : Step T
  | append (item : Option (List T)) (size : Nat) : Step T
  | read_ready (valid_dest : Bool) (size : Nat) : Step T
  | peek_ready (valid_dest : Bool) (size : Nat) : Step T
  | advance_write_pointer (advance : Nat) : Step T
  | advance_read_pointer (advance : Nat) : Step T
  | query : Step T

/-- State transition of one public operation. -/
def applyStep [Inhabited T] (s : Ringbuf T N) : Step T → Ringbuf T N
  | .reset => s.reset
  | .push_back item => (s.push_back item).2
  | .pop_front => s.pop_front.2
  | .pop_front_ref => s.pop_front_ref.2.2
  | .append item size => (s.append item size).2
  | .read_ready valid_dest size => (s.read_ready valid_dest size).2.2
  | .peek_ready _ _ => s
  | .advance_write_pointer advance => s.advance_write_pointer advance
  | .advance_read_pointer advance => s.advance_read_pointer advance
  | .query => s

/-- State after construction: both cursors at 0 and the storage array
value-initialized (`std::array<T, max_size> buf = {}`). -/
def init (T : Type) (N : Nat) [Inhabited T] : Ringbuf T N :=
  ⟨List.replicate N default, 0, 0⟩

/-- Reachable states: produced from the initial state by some sequence of
public operations with arbitrary arguments. -/
def Reachable [Inhabited T] (s : Ringbuf T N) : Prop :=
  ∃ ops : List (Step T), s = ops.foldl applyStep (init T N)

/-- Structural well-formedness: the storage has the declared length and both
cursors are pre-wrapped into `[0, N)`. -/
def WF (s : Ringbuf T N) : Prop :=
  s.buf.length = N ∧ s.head < N ∧ s.tail < N

/-- Concrete scenario from the spec: a capacity-8 int buffer after pushing the
seven values 0..6. -/
def seven_pushed : Ringbuf Nat 8 :=
  ([Step.push_back 0, Step.push_back 1, Step.push_back 2, Step.push_back 3,
    Step.push_back 4, Step.push_back 5, Step.push_back 6]).foldl applyStep (init Nat 8)

/-- Operation sequence producing a capacity-4 buffer whose occupied data wraps
around the physical end of storage: append three elements, read two, append
two more. -/
def wrap_ops : List (Step Nat) :=
  [Step.append (some [1, 2, 3]) 3, Step.read_ready true 2, Step.append (some [4, 5]) 2]

/-- The wrapped-data scenario state reached by `wrap_ops`. -/
def wrap_state : Ringbuf Nat 4 :=
  wrap_ops.foldl applyStep (init Nat 4)

end Ringbuf

/-- Soundness of translating the C++ cursor-difference idiom: for a power-of-two
capacity `2 ^ k` fitting in `size_t` and cursors below the capacity, the
unsigned computation `(t - h) & (2 ^ k - 1)` — i.e. subtraction modulo `2 ^ 64`
followed by reduction modulo `2 ^ k` — equals `(t + 2 ^ k - h) % 2 ^ k`, the
form used throughout this embedding. -/
theorem mask_sub_mod_eq (k h t : Nat) (hk : k ≤ 64) (hh : h < 2 ^ k) :
    ((t + (2 ^ 64 - h)) % 2 ^ 64) % 2 ^ k = (t + 2 ^ k - h) % 2 ^ k := by
  have hdvd : 2 ^ k ∣ 2 ^ 64 := pow_dvd_pow 2 hk
  have hle : 2 ^ k ≤ 2 ^ 64 := Nat.pow_le_pow_right (by omega) hk
  rw [Nat.mod_mod_of_dvd _ hdvd]
  obtain ⟨c, hc⟩ := (Nat.dvd_sub' hdvd dvd_rfl : 2 ^ k ∣ 2 ^ 64 - 2 ^ k)
  have h1 : t + (2 ^ 64 - h) = (t + (2 ^ k - h)) + (2 ^ 64 - 2 ^ k) := by omega
  have h2 : t + (2 ^ k - h) = t + 2 ^ k - h := by omega
  rw [h1, hc, Nat.add_mul_mod_self_left, h2]

/-- Case analysis for the wrapped cursor difference `(t + N - h) % N` when both
cursors lie below `N`. -/
theorem sub_mod_cases {N h t : Nat} (hN : 0 < N) (hh : h < N) (ht : t < N) :
    (t + N - h) % N = if h ≤ t then t - h else t + N - h := by
  by_cases hle : h ≤ t
  · have h1 : t + N - h = (t - h) + N := by omega
    rw [if_pos hle, h1, Nat.add_mod_right, Nat.mod_eq_of_lt (by omega)]
  · rw [if_neg hle, Nat.mod_eq_of_lt (by omega)]

/-- Case analysis for `x % N` when `x < 2 * N`. -/
theorem mod_cases_of_lt_two_mul {N x : Nat} (hx : x < 2 * N) :
    x % N = if x < N then x else x - N := by
  by_cases h : x < N
  · rw [if_pos h, Nat.mod_eq_of_lt h]
  · rw [if_neg h, Nat.mod_eq_sub_mod (by omega), Nat.mod_eq_of_lt (by omega)]

section WriteRangeLemmas

variable {T : Type}

/-- Writing a run that fits inside the buffer preserves the length. -/
theorem writeRange_length {buf src : List T} {pos : Nat}
    (h : pos + src.length ≤ buf.length) :
    (writeRange buf pos src).length = buf.length := by
  simp only [writeRange, List.length_append, List.length_take, List.length_drop]
  omega

/-- Reading back the run just written yields the written data. -/
theorem writeRange_drop_take {buf src : List T} {pos : Nat}
    (h : pos + src.length ≤ buf.length) :
    ((writeRange buf pos src).drop pos).take src.length = src := by
  have hl : (buf.take pos).length = pos := by
    simp only [List.length_take]
    omega
  rw [writeRange, List.drop_left' hl, List.take_left' rfl]

/-- Slots at or beyond the end of the written run are untouched. -/
theorem writeRange_drop_of_le {buf src : List T} {pos k : Nat}
    (h1 : pos + src.length ≤ buf.length) (h2 : pos + src.length ≤ k) :
    (writeRange buf pos src).drop k = buf.drop k := by
  have hA : (buf.take pos ++ src).length = pos + src.length := by
    simp only [List.length_append, List.length_take]
    omega
  have hk : k = (pos + src.length) + (k - (pos + src.length)) := by omega
  rw [writeRange, ← List.append_assoc, hk, ← List.drop_drop, List.drop_left' hA,
    List.drop_drop]

end WriteRangeLemmas

namespace Ringbuf

variable {T : Type} {N : Nat}

/-- Count returned by `buf_store`: the minimum of the requested size and the
free space, in every case (including a full buffer, where it is `0`). -/
theorem buf_store_fst (s : Ringbuf T N) (local_tail : Nat) (item : List T)
    (size : Nat) :
    (s.buf_store local_tail item size).1 = min size (s.get_free_size_at local_tail) := by
  by_cases h0 : s.get_free_size_at local_tail = 0
  · simp [buf_store, h0]
  · by_cases h1 : min size (s.get_free_size_at local_tail)
        - min (N - local_tail) (min size (s.get_free_size_at local_tail)) > 0
    · simp [buf_store, h0, h1]
    · simp [buf_store, h0, h1]

/-- Count returned by `buf_read`: the minimum of the available data and the
requested size, in every case (including an empty buffer, where it is `0`). -/
theorem buf_read_fst (s : Ringbuf T N) (local_head : Nat) (size : Nat) :
    (s.buf_read local_head size).1 = min (s.get_data_size_at local_head) size := by
  by_cases h0 : s.get_data_size_at local_head = 0
  · simp [buf_read, h0]
  · by_cases h1 : min (s.get_data_size_at local_head) size
        - min (N - local_head) (min (s.get_data_size_at local_head) size) > 0
    · simp [buf_read, h0, h1]
    · simp [buf_read, h0, h1]

/-- Data produced by `buf_read`: exactly the wrapped run of `copy_size`
elements starting at `local_head`. -/
theorem buf_read_snd {s : Ringbuf T N} (hb : s.buf.length = N) (local_head size : Nat) :
    (s.buf_read local_head size).2
      = wrapRead s.buf local_head (s.buf_read local_head size).1 := by
  by_cases h0 : s.get_data_size_at local_head = 0
  · simp [buf_read, h0, wrapRead]
  · by_cases h1 : min (s.get_data_size_at local_head) size
        - min (N - local_head) (min (s.get_data_size_at local_head) size) > 0
    · simp only [buf_read, h0, if_false, h1, if_pos, if_true, if_neg, ite_true,
        ite_false, wrapRead, hb]
    · simp only [buf_read, wrapRead, hb]
      simp [h0, h1]
      omega

/-- Storage length is preserved by `buf_store` for any input pointer and
requested size. -/
theorem buf_store_length {s : Ringbuf T N} (hb : s.buf.length = N) {local_tail : Nat}
    (hlt : local_tail < N) (item : List T) (size : Nat) :
    (s.buf_store local_tail item size).2.length = N := by
  by_cases h0 : s.get_free_size_at local_tail = 0
  · simp [buf_store, h0, hb]
  · have hfree_le : s.get_free_size_at local_tail ≤ N - 1 := Nat.sub_le _ _
    set copy := min size (s.get_free_size_at local_tail) with hcopy
    set fp := min (N - local_tail) copy with hfp
    have h1 : local_tail + (item.take fp).length ≤ s.buf.length := by
      simp only [List.length_take, hb]
      omega
    have hbuf1len : (writeRange s.buf local_tail (item.take fp)).length = N := by
      rw [writeRange_length h1, hb]
    by_cases h2 : copy - fp > 0
    · have h3 : 0 + ((item.drop fp).take (copy - fp)).length
          ≤ (writeRange s.buf local_tail (item.take fp)).length := by
        simp only [List.length_take, List.length_drop, hbuf1len]
        omega
      simp only [buf_store, if_neg h0, ← hcopy, ← hfp, if_pos h2]
      rw [writeRange_length h3, hbuf1len]
    · simp only [buf_store, if_neg h0, ← hcopy, ← hfp, if_neg h2]
      exact hbuf1len

/-- Storage produced by `buf_store`: it keeps the declared length, and the
wrapped run of `copy_size` slots starting at `local_tail` now holds the first
`copy_size` elements of the input. -/
theorem buf_store_snd (hN : 0 < N) {s : Ringbuf T N} (hb : s.buf.length = N)
    {local_tail : Nat} (hlt : local_tail < N) {item : List T} {size : Nat}
    (hsz : size ≤ item.length) :
    (s.buf_store local_tail item size).2.length = N ∧
    wrapRead (s.buf_store local_tail item size).2 local_tail
        (min size (s.get_free_size_at local_tail))
      = item.take (min size (s.get_free_size_at local_tail)) := by
  have hfree_le : s.get_free_size_at local_tail ≤ N - 1 := Nat.sub_le _ _
  by_cases h0 : s.get_free_size_at local_tail = 0
  · simp [buf_store, h0, hb, wrapRead]
  · set copy := min size (s.get_free_size_at local_tail) with hcopy
    set fp := min (N - local_tail) copy with hfp
    have hcopy_le : copy ≤ N - 1 := le_trans (min_le_right _ _) hfree_le
    have hcopy_item : copy ≤ item.length := le_trans (min_le_left _ _) hsz
    have hfp_le : fp ≤ copy := min_le_right _ _
    have htake_len : (item.take fp).length = fp := by
      simp only [List.length_take]
      omega
    have h1 : local_tail + (item.take fp).length ≤ s.buf.length := by
      rw [htake_len, hb]
      omega
    have hbuf1len : (writeRange s.buf local_tail (item.take fp)).length = N := by
      rw [writeRange_length h1, hb]
    by_cases h2 : copy - fp > 0
    · -- the copy wraps: a second run is written at offset 0
      have hfp_eq : fp = N - local_tail := by omega
      have hsp_le : copy - fp ≤ local_tail := by omega
      have hs2len : ((item.drop fp).take (copy - fp)).length = copy - fp := by
        simp only [List.length_take, List.length_drop]
        omega
      have h3 : 0 + ((item.drop fp).take (copy - fp)).length
          ≤ (writeRange s.buf local_tail (item.take fp)).length := by
        rw [hs2len, hbuf1len]
        omega
      have hbuf2len :
          (writeRange (writeRange s.buf local_tail (item.take fp)) 0
            ((item.drop fp).take (copy - fp))).length = N := by
        rw [writeRange_length h3, hbuf1len]
      refine ⟨?_, ?_⟩
      · simp only [buf_store, if_neg h0, ← hcopy, ← hfp, if_pos h2]
        exact hbuf2len
      · simp only [buf_store, if_neg h0, ← hcopy, ← hfp, if_pos h2]
        rw [wrapRead, hbuf2len]
        have hmin : min (N - local_tail) copy = fp := rfl
        have hdt : ((writeRange s.buf local_tail (item.take fp)).drop local_tail).take fp
            = item.take fp := by
          have h := writeRange_drop_take h1
          rw [htake_len] at h
          exact h
        have htk : (writeRange (writeRange s.buf local_tail (item.take fp)) 0
            ((item.drop fp).take (copy - fp))).take (copy - fp)
            = (item.drop fp).take (copy - fp) := by
          have h := writeRange_drop_take h3
          rw [List.drop_zero, hs2len] at h
          exact h
        rw [hmin, writeRange_drop_of_le h3 (by rw [hs2len]; omega), hdt, htk,
          ← List.take_add]
        have hfs : fp + (copy - fp) = copy := by omega
        rw [hfs]
    · -- the copy is linear: no wrapped part
      have hfp_eq : fp = copy := by omega
      refine ⟨?_, ?_⟩
      · simp only [buf_store, if_neg h0, ← hcopy, ← hfp, if_neg h2]
        exact hbuf1len
      · simp only [buf_store, if_neg h0, ← hcopy, ← hfp, if_neg h2]
        rw [wrapRead, hbuf1len]
        have hmin : min (N - local_tail) copy = fp := rfl
        have hdt : ((writeRange s.buf local_tail (item.take fp)).drop local_tail).take fp
            = item.take fp := by
          have h := writeRange_drop_take h1
          rw [htake_len] at h
          exact h
        have hz : copy - fp = 0 := by omega
        rw [hmin, hz, List.take_zero, List.append_nil, hdt, hfp_eq]

/-- Effect of advancing the write cursor by `m` on the wrapped cursor
difference, as long as the result stays within the usable range. -/
theorem data_size_after_tail_advance (N h t m : Nat) (hN : 0 < N) (hh : h < N)
    (ht : t < N) (hm : (t + N - h) % N + m < N) :
    ((t + m) % N + N - h) % N = (t + N - h) % N + m := by
  rw [sub_mod_cases hN hh ht] at hm ⊢
  by_cases hle : h ≤ t
  · rw [if_pos hle] at hm ⊢
    have h2 : t + m < 2 * N := by omega
    rw [mod_cases_of_lt_two_mul h2]
    by_cases h3 : t + m < N
    · rw [if_pos h3, sub_mod_cases hN hh h3]
      split_ifs <;> omega
    · rw [if_neg h3, sub_mod_cases hN hh (show t + m - N < N by omega)]
      split_ifs <;> omega
  · rw [if_neg hle] at hm ⊢
    have h3 : t + m < N := by omega
    rw [Nat.mod_eq_of_lt h3, sub_mod_cases hN hh h3]
    split_ifs <;> omega

/-- Effect of advancing the read cursor by `m` on the wrapped cursor
difference, as long as at most the occupied count is consumed. -/
theorem data_size_after_head_advance (N h t m : Nat) (hN : 0 < N) (hh : h < N)
    (ht : t < N) (hm : m ≤ (t + N - h) % N) :
    (t + N - (h + m) % N) % N = (t + N - h) % N - m := by
  rw [sub_mod_cases hN hh ht] at hm ⊢
  by_cases hle : h ≤ t
  · rw [if_pos hle] at hm ⊢
    have h3 : h + m < N := by omega
    rw [Nat.mod_eq_of_lt h3, sub_mod_cases hN h3 ht]
    split_ifs <;> omega
  · rw [if_neg hle] at hm ⊢
    have h2 : h + m < 2 * N := by omega
    rw [mod_cases_of_lt_two_mul h2]
    by_cases h3 : h + m < N
    · rw [if_pos h3, sub_mod_cases hN h3 ht]
      split_ifs <;> omega
    · rw [if_neg h3, sub_mod_cases hN (show h + m - N < N by omega) ht]
      split_ifs <;> omega

/-- Every public operation keeps the state well-formed. -/
theorem wf_applyStep [Inhabited T] (hN : 0 < N) {s : Ringbuf T N} (hwf : s.WF)
    (op : Step T) : (applyStep s op).WF := by
  obtain ⟨hb, hh, ht⟩ := hwf
  cases op with
  | reset => exact ⟨hb, hN, hN⟩
  | push_back item =>
    by_cases hf : s.full
    · simp only [applyStep, push_back, if_pos hf]
      exact ⟨hb, hh, ht⟩
    · simp only [applyStep, push_back, if_neg hf]
      exact ⟨by simp [List.length_set, hb], hh, Nat.mod_lt _ hN⟩
  | pop_front =>
    by_cases he : s.empty
    · simp only [applyStep, pop_front, if_pos he]
      exact ⟨hb, hh, ht⟩
    · simp only [applyStep, pop_front, if_neg he]
      exact ⟨hb, Nat.mod_lt _ hN, ht⟩
  | pop_front_ref =>
    by_cases he : s.empty
    · simp only [applyStep, pop_front_ref, if_pos he]
      exact ⟨hb, hh, ht⟩
    · simp only [applyStep, pop_front_ref, if_neg he]
      exact ⟨hb, Nat.mod_lt _ hN, ht⟩
  | append item size =>
    cases item with
    | none => exact ⟨hb, hh, ht⟩
    | some data =>
      by_cases hz : size = 0
      · simp only [applyStep, append, if_pos hz]
        exact ⟨hb, hh, ht⟩
      · simp only [applyStep, append, if_neg hz]
        exact ⟨buf_store_length hb ht data size, hh, Nat.mod_lt _ hN⟩
  | read_ready valid_dest size =>
    by_cases hg : size = 0 ∨ valid_dest = false
    · simp only [applyStep, read_ready, if_pos hg]
      exact ⟨hb, hh, ht⟩
    · simp only [applyStep, read_ready, if_neg hg]
      exact ⟨hb, Nat.mod_lt _ hN, ht⟩
  | peek_ready valid_dest size => exact ⟨hb, hh, ht⟩
  | advance_write_pointer advance =>
    by_cases hg : advance = 0 ∨ s.full = true
    · simp only [applyStep, advance_write_pointer, if_pos hg]
      exact ⟨hb, hh, ht⟩
    · simp only [applyStep, advance_write_pointer, if_neg hg]
      exact ⟨hb, hh, Nat.mod_lt _ hN⟩
  | advance_read_pointer advance =>
    by_cases hg : advance = 0 ∨ s.empty = true
    · simp only [applyStep, advance_read_pointer, if_pos hg]
      exact ⟨hb, hh, ht⟩
    · simp only [applyStep, advance_read_pointer, if_neg hg]
      exact ⟨hb, Nat.mod_lt _ hN, ht⟩
  | query => exact ⟨hb, hh, ht⟩

/-- The initial state is well-formed. -/
theorem wf_init [Inhabited T] (hN : 0 < N) : (init T N).WF :=
  ⟨by simp [init], hN, hN⟩

/-- Every reachable state is well-formed: the storage keeps its length and
both cursors stay in `[0, N)`. -/
theorem reachable_wf [Inhabited T] (hN : 0 < N) {s : Ringbuf T N}
    (hr : s.Reachable) : s.WF := by
  obtain ⟨ops, rfl⟩ := hr
  suffices h : ∀ (l : List (Step T)) (t : Ringbuf T N), t.WF → (l.foldl applyStep t).WF from
    h ops _ (wf_init hN)
  intro l
  induction l with
  | nil => exact fun t h => h
  | cons a l ih => exact fun t h => ih _ (wf_applyStep hN h a)

end Ringbuf

namespace Ringbuf

variable {T : Type} {N : Nat}

/-- C2: in every reachable state of the engine (any sequence of public
operations with any arguments, starting from the initial state) both cursors
satisfy `0 ≤ cursor < N`, and `size() + get_free_size() = capacity() - 1`. -/
theorem reachable_cursor_invariant [Inhabited T] (hN : 0 < N) (s : Ringbuf T N)
    (hr : s.Reachable) :
    s.head < N ∧ s.tail < N ∧ s.size + s.get_free_size = s.capacity - 1 := by
  obtain ⟨hb, hh, ht⟩ := reachable_wf hN hr
  have hd : s.get_data_size < N := Nat.mod_lt _ hN
  refine ⟨hh, ht, ?_⟩
  simp only [size, get_free_size, capacity]
  omega

theorem reachable_cursor_invariant_witness :
    (init Nat 4).head < 4 ∧ (init Nat 4).tail < 4 ∧
      (init Nat 4).size + (init Nat 4).get_free_size = (init Nat 4).capacity - 1 :=
  reachable_cursor_invariant (by decide) (init Nat 4) ⟨[], rfl⟩

/-- C4: `push_back` on a full buffer returns false and leaves the whole state
unchanged; on a non-full buffer it returns true and grows `size()` by exactly
one.  Concretely, a capacity-8 buffer holding the seven values 0..6 is full,
an eighth `push_back` returns false and the size stays 7. -/
theorem push_back_spec (hN : 0 < N) (s : Ringbuf T N) (hwf : s.WF) (item : T) :
    (s.full = true → s.push_back item = (false, s)) ∧
    (s.full = false →
      (s.push_back item).1 = true ∧ (s.push_back item).2.size = s.size + 1) ∧
    seven_pushed.full = true ∧
    (seven_pushed.push_back 7).1 = false ∧
    (seven_pushed.push_back 7).2.size = 7 := by
  obtain ⟨hb, hh, ht⟩ := hwf
  refine ⟨?_, ?_, by decide, by decide, by decide⟩
  · intro hf
    simp [push_back, hf]
  · intro hf
    have hd : s.get_data_size < N := Nat.mod_lt _ hN
    have hfree : ¬s.get_free_size = 0 := by
      simpa [full] using hf
    have hdlt : s.get_data_size < N - 1 := by
      simp only [get_free_size] at hfree
      omega
    constructor
    · simp [push_back, hf]
    · have hstep := data_size_after_tail_advance N s.head s.tail 1 hN hh ht
        (by
          simp only [get_data_size, get_data_size_at] at hd hdlt ⊢
          omega)
      simp only [push_back, hf, Bool.false_eq_true, if_false, size,
        get_data_size, get_data_size_at]
      exact hstep

theorem push_back_spec_witness :
    ((init Nat 8).push_back 5).1 = true ∧
      ((init Nat 8).push_back 5).2.size = (init Nat 8).size + 1 :=
  (push_back_spec (by decide) (init Nat 8) ⟨by decide, by decide, by decide⟩ 5).2.1 (by decide)

/-- C5: `advance_write_pointer(n)` is a no-op when the buffer is full or
`n = 0`, and otherwise sets the write cursor to `(old + n) % N` without
clamping `n` to the free space.  Concretely, with capacity 4,
`advance_write_pointer(3)` from empty gives `size() = 3` and makes the buffer
full, so a further `advance_write_pointer(1)` is a no-op and the size stays
3. -/
theorem advance_write_pointer_spec (s : Ringbuf T N) (n : Nat) :
    (n = 0 ∨ s.full = true → s.advance_write_pointer n = s) ∧
    (¬(n = 0 ∨ s.full = true) →
      s.advance_write_pointer n = { s with tail := (s.tail + n) % N }) ∧
    ((init Nat 4).advance_write_pointer 3).size = 3 ∧
    ((init Nat 4).advance_write_pointer 3).full = true ∧
    ((init Nat 4).advance_write_pointer 3).advance_write_pointer 1
      = (init Nat 4).advance_write_pointer 3 ∧
    (((init Nat 4).advance_write_pointer 3).advance_write_pointer 1).size = 3 := by
  refine ⟨?_, ?_, by decide, by decide, by decide, by decide⟩
  · intro h
    simp [advance_write_pointer, h]
  · intro h
    rw [advance_write_pointer, if_neg (by simpa using h)]

theorem advance_write_pointer_spec_witness :
    (init Nat 4).advance_write_pointer 0 = init Nat 4 :=
  (advance_write_pointer_spec (init Nat 4) 0).1 (Or.inl rfl)

/-- C8: `peek_ready` returns the same count and copies the same elements as
`read_ready` would from the same state, but performs no state change (the
read cursor is never stored back); it returns 0 on a null destination, a zero
length, or an empty buffer. -/
theorem peek_ready_spec [Inhabited T] (s : Ringbuf T N) (valid_dest : Bool) (n : Nat) :
    (s.peek_ready valid_dest n).1 = (s.read_ready valid_dest n).1 ∧
    (s.peek_ready valid_dest n).2 = (s.read_ready valid_dest n).2.1 ∧
    applyStep s (Step.peek_ready valid_dest n) = s ∧
    (valid_dest = false ∨ n = 0 ∨ s.empty = true → (s.peek_ready valid_dest n).1 = 0) := by
  have heq : (s.peek_ready valid_dest n).1 = (s.read_ready valid_dest n).1 ∧
      (s.peek_ready valid_dest n).2 = (s.read_ready valid_dest n).2.1 := by
    by_cases hg : n = 0 ∨ valid_dest = false
    · simp [peek_ready, read_ready, hg]
    · by_cases h0 : s.get_data_size_at s.head = 0
      · simp [peek_ready, read_ready, buf_read, hg, h0]
      · simp [peek_ready, read_ready, hg, h0]
  refine ⟨heq.1, heq.2, rfl, ?_⟩
  intro h
  rcases h with h | h | h
  · simp [peek_ready, h]
  · simp [peek_ready, h]
  · have h0 : s.get_data_size_at s.head = 0 := by
      simpa [Ringbuf.empty, get_data_size] using h
    by_cases hg : n = 0 ∨ valid_dest = false
    · simp [peek_ready, hg]
    · simp [peek_ready, hg, h0]

theorem peek_ready_spec_witness :
    ((init Nat 4).peek_ready true 2).1 = ((init Nat 4).read_ready true 2).1 :=
  (peek_ready_spec (init Nat 4) true 2).1

/-- C9: on an empty buffer, `pop_front()` returns a default-constructed value
and `pop_front(&out)` returns false without writing to `out`, both leaving
the state unchanged; on a non-empty buffer both overloads return the element
at the read cursor, advance the read cursor by one and shrink the size by
one. -/
theorem pop_front_spec [Inhabited T] (hN : 0 < N) (s : Ringbuf T N) (hwf : s.WF) :
    (s.empty = true → s.pop_front = (default, s) ∧ s.pop_front_ref = (false, none, s)) ∧
    (s.empty = false →
      s.pop_front = (s.buf.getD s.head default, { s with head := (s.head + 1) % N }) ∧
      s.pop_front_ref
        = (true, some (s.buf.getD s.head default), { s with head := (s.head + 1) % N }) ∧
      s.pop_front.2.size = s.size - 1) := by
  obtain ⟨hb, hh, ht⟩ := hwf
  constructor
  · intro he
    constructor
    · simp [pop_front, he]
    · simp [pop_front_ref, he]
  · intro he
    have hd0 : ¬s.get_data_size = 0 := by
      simpa [Ringbuf.empty] using he
    have hstep := data_size_after_head_advance N s.head s.tail 1 hN hh ht
      (by
        simp only [get_data_size, get_data_size_at] at hd0 ⊢
        omega)
    refine ⟨by simp [pop_front, he], by simp [pop_front_ref, he], ?_⟩
    simp only [pop_front, he, Bool.false_eq_true, if_false, size,
      get_data_size, get_data_size_at]
    exact hstep

theorem pop_front_spec_witness :
    (init Nat 4).pop_front = (0, init Nat 4) ∧
      (init Nat 4).pop_front_ref = (false, none, init Nat 4) :=
  (pop_front_spec (by decide) (init Nat 4) ⟨by decide, by decide, by decide⟩).1 (by decide)

/-- C10: in every reachable state, including the empty buffer, the read
cursor is a valid index into storage, and `peek()` returns exactly the
element stored in that slot, as a total in-bounds access. -/
theorem peek_spec [Inhabited T] (hN : 0 < N) (s : Ringbuf T N) (hr : s.Reachable) :
    ∃ h : s.head < s.buf.length, s.peek = s.buf.get ⟨s.head, h⟩ := by
  obtain ⟨hb, hh, ht⟩ := reachable_wf hN hr
  have h : s.head < s.buf.length := by
    rw [hb]
    exact hh
  exact ⟨h, by rw [peek, List.getD_eq_getElem s.buf default h, List.get_eq_getElem]⟩

theorem peek_spec_witness :
    ∃ h : (init Nat 4).head < (init Nat 4).buf.length,
      (init Nat 4).peek = (init Nat 4).buf.get ⟨(init Nat 4).head, h⟩ :=
  peek_spec (by decide) (init Nat 4) ⟨[], rfl⟩

end Ringbuf

namespace Ringbuf

variable {T : Type} {N : Nat}

/-- C3: `append(ptr, n)` returns 0 and changes nothing when the pointer is
null or the length is 0; otherwise it copies exactly `min(n, free_space)`
elements into the buffer (wrapping across the physical end when needed),
advances the write cursor by that count, never copies more than the free
space, and silently drops the excess input. -/
theorem append_spec (hN : 0 < N) (s : Ringbuf T N) (hwf : s.WF) (item : List T)
    (n : Nat) :
    (s.append none n).1 = 0 ∧ (s.append none n).2 = s ∧
    (s.append (some item) 0).1 = 0 ∧ (s.append (some item) 0).2 = s ∧
    (0 < n → n ≤ item.length →
      (s.append (some item) n).1 = min n s.get_free_size ∧
      (s.append (some item) n).1 ≤ s.get_free_size ∧
      (s.append (some item) n).2.head = s.head ∧
      (s.append (some item) n).2.tail = (s.tail + min n s.get_free_size) % N ∧
      wrapRead (s.append (some item) n).2.buf s.tail (min n s.get_free_size)
        = item.take (min n s.get_free_size)) := by
  obtain ⟨hb, hh, ht⟩ := hwf
  have hfeq : s.get_free_size_at s.tail = s.get_free_size := rfl
  refine ⟨rfl, rfl, by simp [append], by simp [append], ?_⟩
  intro hn hlen
  have hne : ¬n = 0 := by omega
  have h1 := buf_store_fst s s.tail item n
  have h2 := buf_store_snd hN hb ht hlen
  rw [hfeq] at h1 h2
  refine ⟨?_, ?_, ?_, ?_, ?_⟩ <;> simp only [append, if_neg hne]
  · exact h1
  · rw [h1]
    exact min_le_right _ _
  · rw [h1]
  · exact h2.2

theorem append_spec_witness :
    ((init Nat 4).append (some [7, 8]) 2).1 = min 2 (init Nat 4).get_free_size ∧
    ((init Nat 4).append (some [7, 8]) 2).1 ≤ (init Nat 4).get_free_size ∧
    ((init Nat 4).append (some [7, 8]) 2).2.head = (init Nat 4).head ∧
    ((init Nat 4).append (some [7, 8]) 2).2.tail
      = ((init Nat 4).tail + min 2 (init Nat 4).get_free_size) % 4 ∧
    wrapRead ((init Nat 4).append (some [7, 8]) 2).2.buf (init Nat 4).tail
        (min 2 (init Nat 4).get_free_size)
      = List.take (min 2 (init Nat 4).get_free_size) [7, 8] :=
  (append_spec (by decide) (init Nat 4) ⟨by decide, by decide, by decide⟩
    [7, 8] 2).2.2.2.2 (by decide) (by decide)

/-- C1: starting from any empty buffer (read and write cursor both at any
position `c < N`), appending a sequence `S` with `0 < S.length ≤ N - 1`
returns `S.length`, and a subsequent `read_ready` into a destination of
length at least `S.length` returns `S.length` and yields exactly `S` in
order, including when the data physically wraps around the end of
storage. -/
theorem round_trip (hN : 0 < N) (c : Nat) (hc : c < N) (buf0 : List T)
    (hb : buf0.length = N) (S : List T) (hS : 0 < S.length) (hSle : S.length ≤ N - 1)
    (m : Nat) (hm : S.length ≤ m) :
    ((⟨buf0, c, c⟩ : Ringbuf T N).append (some S) S.length).1 = S.length ∧
    (((⟨buf0, c, c⟩ : Ringbuf T N).append (some S) S.length).2.read_ready true m).1
      = S.length ∧
    (((⟨buf0, c, c⟩ : Ringbuf T N).append (some S) S.length).2.read_ready true m).2.1
      = S := by
  have hcN : c + N - c = N := by omega
  have hd0 : (c + N - c) % N = 0 := by rw [hcN, Nat.mod_self]
  have hfreeeq : (⟨buf0, c, c⟩ : Ringbuf T N).get_free_size_at c = N - 1 := by
    show N - 1 - ((c + N - c) % N) = N - 1
    rw [hd0]
    omega
  have hne : ¬S.length = 0 := by omega
  have hres1 : ((⟨buf0, c, c⟩ : Ringbuf T N).buf_store c S S.length).1 = S.length := by
    rw [buf_store_fst, hfreeeq, min_eq_left hSle]
  have h2 := @buf_store_snd T N hN ⟨buf0, c, c⟩ hb c hc S S.length (le_refl S.length)
  rw [hfreeeq, min_eq_left hSle, List.take_length] at h2
  obtain ⟨hlen2, hwrap⟩ := h2
  have happ : (⟨buf0, c, c⟩ : Ringbuf T N).append (some S) S.length
      = (S.length,
          ⟨((⟨buf0, c, c⟩ : Ringbuf T N).buf_store c S S.length).2, c,
            (c + S.length) % N⟩) := by
    simp only [append, if_neg hne]
    rw [hres1]
  have hd1 : ((c + S.length) % N + N - c) % N = S.length := by
    have hstep := data_size_after_tail_advance N c c S.length hN hc hc
      (by rw [hd0]; omega)
    rw [hstep, hd0]
    omega
  have hgm : ¬(m = 0 ∨ (true : Bool) = false) := by
    intro h
    rcases h with h | h
    · omega
    · exact absurd h (by decide)
  have hr1 : ((⟨((⟨buf0, c, c⟩ : Ringbuf T N).buf_store c S S.length).2, c,
      (c + S.length) % N⟩ : Ringbuf T N).buf_read c m).1 = S.length := by
    rw [buf_read_fst]
    show min (((c + S.length) % N + N - c) % N) m = S.length
    rw [hd1]
    exact min_eq_left hm
  have hr2 : ((⟨((⟨buf0, c, c⟩ : Ringbuf T N).buf_store c S S.length).2, c,
      (c + S.length) % N⟩ : Ringbuf T N).buf_read c m).2 = S := by
    have hbr := @buf_read_snd T N
      ⟨((⟨buf0, c, c⟩ : Ringbuf T N).buf_store c S S.length).2, c, (c + S.length) % N⟩
      hlen2 c m
    rw [hr1] at hbr
    rw [hbr]
    exact hwrap
  rw [happ]
  refine ⟨rfl, ?_, ?_⟩
  · simp only [read_ready, if_neg hgm]
    exact hr1
  · simp only [read_ready, if_neg hgm]
    exact hr2

theorem round_trip_witness :
    ((⟨[0, 0, 0, 0], 3, 3⟩ : Ringbuf Nat 4).append (some [5, 6]) 2).1 = 2 ∧
    (((⟨[0, 0, 0, 0], 3, 3⟩ : Ringbuf Nat 4).append (some [5, 6]) 2).2.read_ready
      true 2).1 = 2 ∧
    (((⟨[0, 0, 0, 0], 3, 3⟩ : Ringbuf Nat 4).append (some [5, 6]) 2).2.read_ready
      true 2).2.1 = [5, 6] :=
  round_trip (by decide) 3 (by decide) [0, 0, 0, 0] (by decide) [5, 6] (by decide)
    (by decide) 2 (by decide)

end Ringbuf

namespace Ringbuf

variable {T : Type} {N : Nat}

/-- C6: for every reachable state, the segment pair returned by
`get_read_segments` (resp. `get_write_segments`) has `total_size` equal to the
occupied count (resp. the free space), has a non-empty `second` only when
`first` ends exactly at the physical end of storage, satisfies
`is_linear() = second.empty()`, and is entirely empty (both regions null with
length 0) when the buffer is empty (resp. full). -/
theorem segments_spec [Inhabited T] (hN : 0 < N) (s : Ringbuf T N)
    (hr : s.Reachable) :
    s.get_read_segments.total_size = s.size ∧
    (s.get_read_segments.second.empty = false →
      s.get_read_segments.first.ptr = some s.head ∧
        s.head + s.get_read_segments.first.size = N) ∧
    s.get_read_segments.is_linear = s.get_read_segments.second.empty ∧
    (s.empty = true → s.get_read_segments = ⟨⟨none, 0⟩, ⟨none, 0⟩⟩) ∧
    s.get_write_segments.total_size = s.get_free_size ∧
    (s.get_write_segments.second.empty = false →
      s.get_write_segments.first.ptr = some s.tail ∧
        s.tail + s.get_write_segments.first.size = N) ∧
    s.get_write_segments.is_linear = s.get_write_segments.second.empty ∧
    (s.full = true → s.get_write_segments = ⟨⟨none, 0⟩, ⟨none, 0⟩⟩) := by
  obtain ⟨hb, hh, ht⟩ := reachable_wf hN hr
  have hread : s.get_read_segments.total_size = s.size ∧
      (s.get_read_segments.second.empty = false →
        s.get_read_segments.first.ptr = some s.head ∧
          s.head + s.get_read_segments.first.size = N) ∧
      (s.empty = true → s.get_read_segments = ⟨⟨none, 0⟩, ⟨none, 0⟩⟩) := by
    by_cases h0 : s.get_data_size_at s.head = 0
    · refine ⟨?_, ?_, ?_⟩
      · simp [get_read_segments, h0, BufferSegments.total_size, size, get_data_size]
      · simp [get_read_segments, h0, LinearBlock.empty]
      · intro _
        simp [get_read_segments, h0]
    · by_cases h1 : s.get_data_size_at s.head
          - min (s.get_data_size_at s.head) (N - s.head) > 0
      · refine ⟨?_, ?_, ?_⟩
        · simp [get_read_segments, h0, h1, BufferSegments.total_size, size,
            get_data_size]
        · intro _
          simp [get_read_segments, h0, h1]
          omega
        · intro he
          exfalso
          have h00 : s.get_data_size = 0 := by simpa [Ringbuf.empty] using he
          exact h0 h00
      · refine ⟨?_, ?_, ?_⟩
        · simp [get_read_segments, h0, h1, BufferSegments.total_size, size,
            get_data_size]
          omega
        · simp [get_read_segments, h0, h1, LinearBlock.empty]
        · intro he
          exfalso
          have h00 : s.get_data_size = 0 := by simpa [Ringbuf.empty] using he
          exact h0 h00
  have hwrite : s.get_write_segments.total_size = s.get_free_size ∧
      (s.get_write_segments.second.empty = false →
        s.get_write_segments.first.ptr = some s.tail ∧
          s.tail + s.get_write_segments.first.size = N) ∧
      (s.full = true → s.get_write_segments = ⟨⟨none, 0⟩, ⟨none, 0⟩⟩) := by
    have hfw : s.get_free_size_at s.tail = s.get_free_size := rfl
    by_cases h0 : s.get_free_size_at s.tail = 0
    · refine ⟨?_, ?_, ?_⟩
      · rw [← hfw]
        simp [get_write_segments, h0, BufferSegments.total_size]
      · simp [get_write_segments, h0, LinearBlock.empty]
      · intro _
        simp [get_write_segments, h0]
    · by_cases h1 : s.get_free_size_at s.tail
          - min (s.get_free_size_at s.tail) (N - s.tail) > 0
      · refine ⟨?_, ?_, ?_⟩
        · rw [← hfw]
          simp [get_write_segments, h0, h1, BufferSegments.total_size]
        · intro _
          simp [get_write_segments, h0, h1]
          omega
        · intro hfull
          exfalso
          have hz : s.get_free_size = 0 := by simpa [full] using hfull
          rw [hfw] at h0
          exact h0 hz
      · refine ⟨?_, ?_, ?_⟩
        · rw [← hfw]
          simp [get_write_segments, h0, h1, BufferSegments.total_size]
          omega
        · simp [get_write_segments, h0, h1, LinearBlock.empty]
        · intro hfull
          exfalso
          have hz : s.get_free_size = 0 := by simpa [full] using hfull
          rw [hfw] at h0
          exact h0 hz
  exact ⟨hread.1, hread.2.1, rfl, hread.2.2, hwrite.1, hwrite.2.1, rfl, hwrite.2.2⟩

theorem segments_spec_witness :
    (init Nat 4).get_read_segments.total_size = (init Nat 4).size ∧
      (init Nat 4).get_read_segments = ⟨⟨none, 0⟩, ⟨none, 0⟩⟩ :=
  ⟨(segments_spec (by decide) (init Nat 4) ⟨[], rfl⟩).1,
    (segments_spec (by decide) (init Nat 4) ⟨[], rfl⟩).2.2.2.1 (by decide)⟩

/-- C7: in every reachable state whose occupied data physically wraps around
the end of storage, `get_read_segments` reports `is_linear() = false` and the
concatenation of the contents of `first` and `second` is exactly the element
sequence a copying `read_ready` of the full occupied count returns, in the
same order; symmetrically `get_write_segments` reports `is_linear() = false`
whenever the free space wraps. -/
theorem segments_wrap_concat [Inhabited T] (hN : 0 < N) (s : Ringbuf T N)
    (hr : s.Reachable) (hwrap : N < s.head + s.size) :
    s.get_read_segments.is_linear = false ∧
    blockContents s.buf s.get_read_segments.first
        ++ blockContents s.buf s.get_read_segments.second
      = (s.read_ready true s.size).2.1 ∧
    (N < s.tail + s.get_free_size → s.get_write_segments.is_linear = false) := by
  obtain ⟨hb, hh, ht⟩ := reachable_wf hN hr
  have hdlt : s.get_data_size_at s.head < N := Nat.mod_lt _ hN
  have hds : s.size = s.get_data_size_at s.head := rfl
  rw [hds] at hwrap
  have h0 : ¬s.get_data_size_at s.head = 0 := by omega
  have hminr : min (s.get_data_size_at s.head) (N - s.head) = N - s.head := by omega
  have h1 : s.get_data_size_at s.head
      - min (s.get_data_size_at s.head) (N - s.head) > 0 := by omega
  have h1n : ¬s.get_data_size_at s.head
      - min (s.get_data_size_at s.head) (N - s.head) = 0 := by omega
  refine ⟨?_, ?_, ?_⟩
  · simp [get_read_segments, h0, h1, BufferSegments.is_linear, LinearBlock.empty, h1n]
  · have hgm : ¬(s.size = 0 ∨ (true : Bool) = false) := by
      intro h
      rcases h with h | h
      · rw [hds] at h
        exact h0 h
      · exact absurd h (by decide)
    have hr1 : (s.buf_read s.head s.size).1 = s.get_data_size_at s.head := by
      rw [buf_read_fst]
      show min (s.get_data_size_at s.head) (s.get_data_size_at s.head)
        = s.get_data_size_at s.head
      exact min_self _
    have hrhs : (s.read_ready true s.size).2.1
        = wrapRead s.buf s.head (s.get_data_size_at s.head) := by
      simp only [read_ready, if_neg hgm]
      rw [buf_read_snd hb, hr1]
    rw [hrhs]
    have hminr2 : min (s.buf.length - s.head) (s.get_data_size_at s.head)
        = N - s.head := by
      rw [hb]
      omega
    rw [wrapRead, hminr2]
    have hlt2 : N - s.head < s.get_data_size_at s.head := by omega
    simp [get_read_segments, h0, h1, blockContents, hminr, List.drop_zero, hlt2]
  · intro hwW
    have hfw : s.get_free_size_at s.tail = s.get_free_size := rfl
    rw [← hfw] at hwW
    have hw0 : ¬s.get_free_size_at s.tail = 0 := by omega
    have hw1 : s.get_free_size_at s.tail
        - min (s.get_free_size_at s.tail) (N - s.tail) > 0 := by omega
    have hw1n : ¬s.get_free_size_at s.tail
        - min (s.get_free_size_at s.tail) (N - s.tail) = 0 := by omega
    simp [get_write_segments, hw0, hw1, BufferSegments.is_linear,
      LinearBlock.empty, hw1n]

theorem segments_wrap_concat_witness :
    wrap_state.get_read_segments.is_linear = false ∧
    blockContents wrap_state.buf wrap_state.get_read_segments.first
        ++ blockContents wrap_state.buf wrap_state.get_read_segments.second
      = (wrap_state.read_ready true wrap_state.size).2.1 ∧
    (4 < wrap_state.tail + wrap_state.get_free_size →
      wrap_state.get_write_segments.is_linear = false) :=
  segments_wrap_concat (by decide) wrap_state ⟨wrap_ops, rfl⟩ (by decide)

end Ringbuf
